import Mathlib

/-!
Verification of the ndb-server data/contract layer: the typed metadata value
system and the constraint-matching engine of `src/internal/ndb/include/Constraints.h`,
the C-binding document builder and constraint builder of `src/internal/ndb/binding.cc`,
and the insert contract of `src/internal/ndb/include/NeuralDB.h`.

Embedding conventions:
- `std::string` is Lean `String` (lexicographic order on UTF-8 bytes coincides
  with lexicographic order on Unicode code points, which is what `List.Lex` on
  `.data` gives).
- C++ `int` metadata payloads are `Int` (no arithmetic is performed on them,
  only comparisons, so width does not matter).
- C++ `float` payloads are modelled as `ℚ` (every finite float is a rational
  and float comparison on finite values agrees with rational comparison; no
  claim here depends on NaN/rounding behaviour).
- `std::unordered_map` is an association list with unique keys in practice;
  `mapSet` models `operator[]` assignment (overwrite-or-append), `mapGet`
  models `find`, `mapErase` models `erase`.
- throwing functions return `Except String`, matching the C++ message text.
-/

namespace Ndb

/-- Models `enum class MetadataType { Bool, Int, Float, Str, Nil }` from Constraints.h. -/
inductive MetadataType where
  | bool
  | int
  | float
  | str
  | nil
deriving DecidableEq, Repr

/-- Models `MetadataValue`: a tagged scalar union.  The C++ class stores a `_type` tag
next to a `std::variant`; the factory constructors (`Bool`, `Int`, `Float`,
`Str`) and the default constructor (`Nil`, whose variant holds the default
alternative `bool = false`) are the only ways to build one, so the reachable
states are exactly these five constructor forms. -/
inductive MetadataValue where
  | nil
  | bool (b : Bool)
  | int (i : Int)
  | float (q : ℚ)
  | str (s : String)
deriving DecidableEq, Repr

namespace MetadataValue

/-- Models `MetadataValue::type()`. -/
def type : MetadataValue → MetadataType
  | .nil => .nil
  | .bool _ => .bool
  | .int _ => .int
  | .float _ => .float
  | .str _ => .str

/-- Models `typeToString` from Constraints.h. -/
def typeToString : MetadataType → String
  | .bool => "bool"
  | .int => "int"
  | .float => "float"
  | .str => "str"
  | .nil => "nil"

/-- The message `checkType` throws on a tag mismatch. -/
def typeErrMsg (stored expected : MetadataType) : String :=
  "cannot convert metadata type " ++ typeToString stored ++ " to type " ++
    typeToString expected

/-- Models `MetadataValue::asBool()`: `checkType(Bool)` then `std::get<bool>`. -/
def asBool : MetadataValue → Except String Bool
  | .bool b => .ok b
  | v => .error (typeErrMsg v.type .bool)

/-- Models `MetadataValue::asInt()`. -/
def asInt : MetadataValue → Except String Int
  | .int i => .ok i
  | v => .error (typeErrMsg v.type .int)

/-- Models `MetadataValue::asFloat()`. -/
def asFloat : MetadataValue → Except String ℚ
  | .float q => .ok q
  | v => .error (typeErrMsg v.type .float)

/-- Models `MetadataValue::asStr()`. -/
def asStr : MetadataValue → Except String String
  | .str s => .ok s
  | v => .error (typeErrMsg v.type .str)

/-- Models `MetadataValue::equals`: `_type == other._type && _value == other._value`.
Two default (Nil) values both hold the variant default `bool false`, so they
compare equal. -/
def equals : MetadataValue → MetadataValue → Bool
  | .nil, .nil => true
  | .bool a, .bool b => a == b
  | .int a, .int b => a == b
  | .float a, .float b => a == b
  | .str a, .str b => a == b
  | _, _ => false

/-- Byte-lexicographic order of character lists, as `std::string::operator<`
compares UTF-8 encodings (bytewise order on UTF-8 agrees with code-point
order). -/
def charListLt : List Char → List Char → Bool
  | [], [] => false
  | [], _ :: _ => true
  | _ :: _, [] => false
  | a :: as, b :: bs => a < b || (a == b && charListLt as bs)

/-- Models `MetadataValue::lessThan`: `_type == other._type && _value < other._value`.
On equal tags the variant comparison is the `operator<` of the contained value;
two Nil values hold `bool false` on both sides, so the comparison is false. -/
def lessThan : MetadataValue → MetadataValue → Bool
  | .nil, .nil => false
  | .bool a, .bool b => !a && b
  | .int a, .int b => a < b
  | .float a, .float b => a < b
  | .str a, .str b => charListLt a.data b.data
  | _, _ => false

/-- Models `MetadataValue::greaterThan`: `_type == other._type && _value > other._value`. -/
def greaterThan : MetadataValue → MetadataValue → Bool
  | .nil, .nil => false
  | .bool a, .bool b => a && !b
  | .int a, .int b => b < a
  | .float a, .float b => b < a
  | .str a, .str b => charListLt b.data a.data
  | _, _ => false

/-- Models `needle.isPrefixOf hay` written out: does `hay` start with `needle`? -/
def leadsWith : List Char → List Char → Bool
  | [], _ => true
  | _ :: _, [] => false
  | a :: as, b :: bs => a == b && leadsWith as bs

/-- Models `hay.find(needle) != npos` of `std::string`: does `hay` contain `needle`
as a contiguous substring (an empty needle is always found, at position 0)? -/
def containsSub (hay needle : List Char) : Bool :=
  leadsWith needle hay ||
    match hay with
    | [] => false
    | _ :: t => containsSub t needle

/-- Models `MetadataValue::hasSubstring`: the receiver is the haystack, the argument
the needle; both must be Str-tagged. -/
def hasSubstring (self other : MetadataValue) : Bool :=
  match self, other with
  | .str hay, .str needle => containsSub hay.data needle.data
  | _, _ => false

end MetadataValue

/-- The closed set of constraint kinds (`EqualTo`, `Substring`, `AnyOf`,
`LessThan`, `GreaterThan`), each owning its comparison operand(s), as in
Constraints.h. -/
inductive Constraint where
  | equalTo (v : MetadataValue)
  | substring (v : MetadataValue)
  | anyOf (vs : List MetadataValue)
  | lessThan (v : MetadataValue)
  | greaterThan (v : MetadataValue)
deriving DecidableEq, Repr

/-- Virtual `Constraint::matches(value)` dispatch:
`EqualTo` is `_value.equals(value)`, `Substring` is `value.hasSubstring(_value)`,
`AnyOf` is `any_of(_values, value.equals(v))`, `LessThan` is
`value.lessThan(_value)`, `GreaterThan` is `value.greaterThan(_value)`. -/
def Constraint.matchesValue : Constraint → MetadataValue → Bool
  | .equalTo v, c => v.equals c
  | .substring v, c => c.hasSubstring v
  | .anyOf vs, c => vs.any fun v => c.equals v
  | .lessThan v, c => c.lessThan v
  | .greaterThan v, c => c.greaterThan v

/-- Models `std::unordered_map` lookup (`find`): the first entry with the key, if any. -/
def mapGet {α : Type} : List (String × α) → String → Option α
  | [], _ => none
  | (k0, v0) :: t, k => if k0 = k then some v0 else mapGet t k

/-- Models `std::unordered_map` `operator[] =` assignment: overwrite the entry with
the key if present, otherwise append a fresh entry. -/
def mapSet {α : Type} : List (String × α) → String → α → List (String × α)
  | [], k, v => [(k, v)]
  | (k0, v0) :: t, k, v =>
    if k0 = k then (k, v) :: t else (k0, v0) :: mapSet t k v

/-- Models `std::unordered_map::erase(key)`. -/
def mapErase {α : Type} : List (String × α) → String → List (String × α)
  | [], _ => []
  | (k0, v0) :: t, k => if k0 = k then mapErase t k else (k0, v0) :: mapErase t k

/-- Models `MetadataMap = std::unordered_map<std::string, MetadataValue>`. -/
abbrev MetadataMap : Type := List (String × MetadataValue)

/-- Models `QueryConstraints = std::unordered_map<std::string, shared_ptr<Constraint>>`. -/
abbrev QueryConstraints : Type := List (String × Constraint)

/-- Modelled from the spec: the body of the top-level
`matches(const QueryConstraints &, const MetadataMap &)` declared at
Constraints.h:125 lives in a translation unit that is not part of the sources
(only the declaration is present).  Spec §3: "Matching a MetadataMap requires:
for every (key, constraint) pair in QueryConstraints, the map contains that
key AND constraint.matches(map[key]) is true.  A metadata map lacking a
constrained key fails the match." -/
def matchesMeta (constraints : QueryConstraints) (metadata : MetadataMap) : Bool :=
  constraints.all fun kc =>
    match mapGet metadata kc.1 with
    | some v => kc.2.matchesValue v
    | none => false

/-- Op codes of `Constraints_add_binary_constraint` in binding.cc. -/
def BinaryConstraintEq : Int := 0
/-- Op code for `LessThan`. -/
def BinaryConstraintLt : Int := 1
/-- Op code for `GreaterThan`. -/
def BinaryConstraintGt : Int := 2
/-- Op code for `Substring`. -/
def BinaryConstraintSubstr : Int := 3

/-- Models `Constraints_add_binary_constraint` from binding.cc: a `switch` on the op
code assigning `constraints[key] = <constraint>`; an unknown op code falls
through the switch and leaves the map unchanged. -/
def Constraints_add_binary_constraint (constraints : QueryConstraints) (op : Int)
    (key : String) (value : MetadataValue) : QueryConstraints :=
  if op = BinaryConstraintEq then mapSet constraints key (.equalTo value)
  else if op = BinaryConstraintLt then mapSet constraints key (.lessThan value)
  else if op = BinaryConstraintGt then mapSet constraints key (.greaterThan value)
  else if op = BinaryConstraintSubstr then mapSet constraints key (.substring value)
  else constraints

/-- Models `Constraints_add_any_of_constraint` from binding.cc:
`constraints[key] = AnyOf::make(values)`. -/
def Constraints_add_any_of_constraint (constraints : QueryConstraints)
    (key : String) (values : List MetadataValue) : QueryConstraints :=
  mapSet constraints key (.anyOf values)

/-- Models `Document_t` from binding.cc. -/
structure Document where
  chunks : List String
  metadata : List MetadataMap
  document : String
  doc_id : String
  doc_version : Option Nat
deriving Repr

/-- Models `Document_new(document, doc_id)`: fresh `Document_t` with the two strings
set; `chunks` and `metadata` are default-empty vectors, `doc_version` unset. -/
def Document_new (document doc_id : String) : Document :=
  { chunks := [], metadata := [], document := document, doc_id := doc_id,
    doc_version := none }

/-- Models `Document_add_chunk`: `chunks.emplace_back(chunk); metadata.emplace_back();`
appends one chunk text and one empty metadata map together. -/
def Document_add_chunk (doc : Document) (chunk : String) : Document :=
  { doc with chunks := doc.chunks ++ [chunk],
             metadata := doc.metadata ++ [([] : MetadataMap)] }

/-- Models `Document_set_version`. -/
def Document_set_version (doc : Document) (version : Nat) : Document :=
  { doc with doc_version := some version }

/-- Models `Document_add_metadata`: `doc->metadata.at(i)[key] = value`.  `at(i)`
throws `std::out_of_range` before any mutation when `i` is out of bounds, so
on failure the document is unchanged. -/
def Document_add_metadata (doc : Document) (i : Nat) (key : String)
    (value : MetadataValue) : Except String Document :=
  if h : i < doc.metadata.length then
    .ok { doc with
            metadata := doc.metadata.set i (mapSet (doc.metadata.get ⟨i, h⟩) key value) }
  else
    .error "vector index out of range"

/-- One mutation of a `Document_t` through the C binding. -/
inductive DocOp where
  | addChunk (chunk : String)
  | setVersion (version : Nat)
  | addMetadata (i : Nat) (key : String) (value : MetadataValue)

/-- Apply one binding call to a document; a call that throws (out-of-range
`addMetadata`) leaves the document as it was. -/
def applyDocOp (doc : Document) : DocOp → Document
  | .addChunk c => Document_add_chunk doc c
  | .setVersion v => Document_set_version doc v
  | .addMetadata i k v =>
    match Document_add_metadata doc i k v with
    | .ok doc' => doc'
    | .error _ => doc

/-- Apply a sequence of binding calls. -/
def applyDocOps (doc : Document) (ops : List DocOp) : Document :=
  ops.foldl applyDocOp doc

/-- Models `InsertMetadata` from NeuralDB.h: the doc id and version actually used and
the contiguous chunk-id range allocated by an insert. -/
structure InsertMetadata where
  doc_id : String
  doc_version : Nat
  start_id : Nat
  end_id : Nat
deriving DecidableEq, Repr

/-- Modelled from the spec: the store state behind `OnDiskNeuralDB` — its
implementation is not among the sources (only the class declaration in
OnDiskNeuralDB.h).  Per spec §3/§4.3 the state tracks a monotone chunk-id
allocator ("monotonically assigned 64-bit id … never reused across the lifetime of the store, even after deletion"), the versions used per doc id, and the live
document versions with their chunk-id ranges. -/
structure NdbState where
  next_id : Nat
  versions : List (String × Nat)
  live : List (String × Nat × Nat × Nat)
deriving DecidableEq, Repr

/-- A freshly created store. -/
def NdbState.empty : NdbState := { next_id := 0, versions := [], live := [] }

/-- Modelled from the spec: `NeuralDB::insert` (implementation not among the
sources).  Spec §4.3: `chunks` and `metadata` must have equal length, else an
InvalidArgument error; an omitted `doc_version` gets the next version for the
doc id (starting at 1, monotonically increasing); the result carries the
contiguous chunk-id range allocated, here with the half-open convention
`[start_id, end_id)` so that `end_id - start_id` is the number of chunks. -/
def insert (st : NdbState) (chunks : List String) (metadata : List MetadataMap)
    (_document : String) (doc_id : String) (doc_version : Option Nat) :
    Except String (InsertMetadata × NdbState) :=
  if chunks.length ≠ metadata.length then
    .error "chunks and metadata must have the same length"
  else
    let ver := match doc_version with
      | some v => v
      | none => (mapGet st.versions doc_id).getD 0 + 1
    let start := st.next_id
    let stop := st.next_id + chunks.length
    .ok ({ doc_id := doc_id, doc_version := ver, start_id := start,
           end_id := stop },
         { next_id := stop,
           versions := mapSet st.versions doc_id
             (max ((mapGet st.versions doc_id).getD 0) ver),
           live := st.live ++ [(doc_id, ver, start, stop)] })

/-- Modelled from the spec: `deleteDocVersion` removes exactly the chunks of
that document version; chunk ids are not recycled, so the allocator is
untouched. -/
def deleteDocVersion (st : NdbState) (doc_id : String) (doc_version : Nat) :
    NdbState :=
  { st with live := st.live.filter fun e => !(e.1 == doc_id && e.2.1 == doc_version) }

/-- The highest live version of a doc id (0 when none). -/
def maxLiveVersion (live : List (String × Nat × Nat × Nat)) (doc_id : String) : Nat :=
  live.foldl (fun acc e => if e.1 == doc_id then max acc e.2.1 else acc) 0

/-- Modelled from the spec: `deleteDoc(doc_id, keep_latest_version)` deletes
all versions of the doc id, or all but the highest, never touching the
allocator. -/
def deleteDoc (st : NdbState) (doc_id : String) (keep_latest_version : Bool) :
    NdbState :=
  { st with live := st.live.filter fun e =>
      !(e.1 == doc_id) || (keep_latest_version && e.2.1 == maxLiveVersion st.live doc_id) }

/-- Modelled from the spec: `prune` garbage-collects orphaned data; it must
not remove live chunks and never recycles chunk ids. -/
def prune (st : NdbState) : NdbState := st

/-- One store operation that can change its state. -/
inductive NdbOp where
  | insertOp (chunks : List String) (metadata : List MetadataMap)
      (document : String) (doc_id : String) (doc_version : Option Nat)
  | deleteDocVersionOp (doc_id : String) (doc_version : Nat)
  | deleteDocOp (doc_id : String) (keep_latest_version : Bool)
  | pruneOp

/-- Apply one store operation; a failed insert leaves the state unchanged
(spec §4.3: no operation partially mutates visible state on failure). -/
def applyNdbOp (st : NdbState) : NdbOp → NdbState
  | .insertOp c m d i v =>
    match insert st c m d i v with
    | .ok (_, st') => st'
    | .error _ => st
  | .deleteDocVersionOp i v => deleteDocVersion st i v
  | .deleteDocOp i k => deleteDoc st i k
  | .pruneOp => prune st

/-- Apply a sequence of store operations. -/
def applyNdbOps (st : NdbState) (ops : List NdbOp) : NdbState :=
  ops.foldl applyNdbOp st

/-- Did the `Except` computation succeed? -/
def okE {ε α : Type} : Except ε α → Bool
  | .ok _ => true
  | .error _ => false

/-- Spec-side vocabulary, following the words of the spec, for comparing against
the source functions `lessThan`/`greaterThan`: the strict order on the underlying scalar of
two same-tagged values — Bool order (`false < true`), integer order, rational
order for Float payloads, and byte/lexicographic order for Str payloads
(`List.Lex` on the code points, which for UTF-8 encodings coincides with byte
order).  Nil carries no scalar, so no pair involving Nil is related. -/
def specScalarLt : MetadataValue → MetadataValue → Prop
  | .bool a, .bool b => a < b
  | .int a, .int b => a < b
  | .float a, .float b => a < b
  | .str a, .str b => List.Lex (· < ·) a.data b.data
  | _, _ => False

/-- One constraint-building call of the C binding: either
`Constraints_add_binary_constraint` with an op code and operand, or
`Constraints_add_any_of_constraint` with a value list. -/
inductive AddOp where
  | binary (op : Int) (value : MetadataValue)
  | anyOfAdd (values : List MetadataValue)

/-- Apply one constraint-building call under the given key. -/
def applyAdd (constraints : QueryConstraints) (key : String) : AddOp → QueryConstraints
  | .binary op v => Constraints_add_binary_constraint constraints op key v
  | .anyOfAdd vs => Constraints_add_any_of_constraint constraints key vs

/-- The constraint a building call stores (none for an unknown op code, which
falls through the switch in `Constraints_add_binary_constraint`). -/
def addedConstraint : AddOp → Option Constraint
  | .binary op v =>
    if op = BinaryConstraintEq then some (.equalTo v)
    else if op = BinaryConstraintLt then some (.lessThan v)
    else if op = BinaryConstraintGt then some (.greaterThan v)
    else if op = BinaryConstraintSubstr then some (.substring v)
    else none
  | .anyOfAdd vs => some (.anyOf vs)

/-! ### Helper lemmas -/

theorem equals_iff_eq (a b : MetadataValue) : a.equals b = true ↔ a = b := by
  cases a <;> cases b <;> simp [MetadataValue.equals]

theorem mapGet_mapSet_self {α : Type} (m : List (String × α)) (k : String) (v : α) :
    mapGet (mapSet m k v) k = some v := by
  induction m with
  | nil => simp [mapSet, mapGet]
  | cons hd t ih =>
    obtain ⟨k0, v0⟩ := hd
    by_cases h : k0 = k <;> simp [mapSet, mapGet, h, ih]

theorem mapGet_mapSet_ne {α : Type} (m : List (String × α)) (k k' : String) (v : α)
    (h : k' ≠ k) : mapGet (mapSet m k v) k' = mapGet m k' := by
  have hkk : k ≠ k' := fun hh => h hh.symm
  induction m with
  | nil => simp [mapSet, mapGet, hkk]
  | cons hd t ih =>
    obtain ⟨k0, v0⟩ := hd
    by_cases h0 : k0 = k
    · subst h0
      simp [mapSet, mapGet, hkk]
    · simp [mapSet, mapGet, h0, ih]

theorem mapGet_mapErase_self {α : Type} (m : List (String × α)) (k : String) :
    mapGet (mapErase m k) k = none := by
  induction m with
  | nil => simp [mapErase, mapGet]
  | cons hd t ih =>
    obtain ⟨k0, v0⟩ := hd
    by_cases h : k0 = k <;> simp [mapErase, mapGet, h, ih]

theorem leadsWith_iff (nd hay : List Char) :
    MetadataValue.leadsWith nd hay = true ↔ ∃ q, hay = nd ++ q := by
  induction nd generalizing hay with
  | nil => simp [MetadataValue.leadsWith]
  | cons a as ih =>
    cases hay with
    | nil => simp [MetadataValue.leadsWith]
    | cons b bs =>
      simp only [MetadataValue.leadsWith, Bool.and_eq_true, beq_iff_eq, ih]
      constructor
      · rintro ⟨rfl, q, rfl⟩
        exact ⟨q, rfl⟩
      · rintro ⟨q, hq⟩
        rw [List.cons_append] at hq
        injection hq with h1 h2
        exact ⟨h1.symm, q, h2⟩

theorem containsSub_iff (hay nd : List Char) :
    MetadataValue.containsSub hay nd = true ↔ ∃ p q, hay = p ++ nd ++ q := by
  induction hay with
  | nil =>
    rw [show MetadataValue.containsSub [] nd = MetadataValue.leadsWith nd [] from by
      simp [MetadataValue.containsSub]]
    rw [leadsWith_iff]
    constructor
    · rintro ⟨q, hq⟩
      exact ⟨[], q, by simpa using hq⟩
    · rintro ⟨p, q, hpq⟩
      have h0 : (p ++ nd) ++ q = [] := hpq.symm
      rw [List.append_eq_nil] at h0
      obtain ⟨h1, -⟩ := h0
      rw [List.append_eq_nil] at h1
      exact ⟨[], by simp [h1.2]⟩
  | cons h t ih =>
    rw [show MetadataValue.containsSub (h :: t) nd =
        (MetadataValue.leadsWith nd (h :: t) || MetadataValue.containsSub t nd) from rfl]
    rw [Bool.or_eq_true, leadsWith_iff, ih]
    constructor
    · rintro (⟨q, hq⟩ | ⟨p, q, hpq⟩)
      · exact ⟨[], q, by simpa using hq⟩
      · exact ⟨h :: p, q, by simp [hpq]⟩
    · rintro ⟨p, q, hpq⟩
      cases p with
      | nil => exact Or.inl ⟨q, by simpa using hpq⟩
      | cons x p' =>
        rw [List.cons_append, List.cons_append] at hpq
        injection hpq with h1 h2
        exact Or.inr ⟨p', q, by simpa using h2⟩

theorem charListLt_iff (as bs : List Char) :
    MetadataValue.charListLt as bs = true ↔ List.Lex (· < ·) as bs := by
  induction as generalizing bs with
  | nil =>
    cases bs with
    | nil => simp [MetadataValue.charListLt]
    | cons b bs' => exact iff_of_true rfl List.Lex.nil
  | cons a as' ih =>
    cases bs with
    | nil => simp [MetadataValue.charListLt]
    | cons b bs' =>
      simp only [MetadataValue.charListLt, Bool.or_eq_true, Bool.and_eq_true,
        beq_iff_eq, decide_eq_true_eq, ih]
      constructor
      · rintro (h | ⟨rfl, h⟩)
        · exact List.Lex.rel h
        · exact List.Lex.cons h
      · intro h
        cases h with
        | cons h' => exact Or.inr ⟨rfl, h'⟩
        | rel h' => exact Or.inl h'

theorem applyAdd_eq_mapSet (m : QueryConstraints) (k : String) (a : AddOp)
    (c : Constraint) (h : addedConstraint a = some c) :
    applyAdd m k a = mapSet m k c := by
  cases a with
  | binary op v =>
    simp only [addedConstraint] at h
    simp only [applyAdd, Constraints_add_binary_constraint]
    split_ifs at h ⊢ <;> simp_all
  | anyOfAdd vs =>
    simp only [addedConstraint, Option.some.injEq] at h
    simp [applyAdd, Constraints_add_any_of_constraint, h]

theorem docOps_preserve (ops : List DocOp) : ∀ doc : Document,
    doc.chunks.length = doc.metadata.length →
    (applyDocOps doc ops).chunks.length = (applyDocOps doc ops).metadata.length := by
  induction ops with
  | nil => exact fun doc h => h
  | cons op t ih =>
    intro doc h
    have hstep : (applyDocOp doc op).chunks.length = (applyDocOp doc op).metadata.length := by
      cases op with
      | addChunk c => simp [applyDocOp, Document_add_chunk, h]
      | setVersion v => simpa [applyDocOp, Document_set_version] using h
      | addMetadata i k v =>
        by_cases hi : i < doc.metadata.length <;>
          simp [applyDocOp, Document_add_metadata, hi, h]
    exact ih _ hstep

theorem next_id_le_applyNdbOp (st : NdbState) (op : NdbOp) :
    st.next_id ≤ (applyNdbOp st op).next_id := by
  cases op with
  | insertOp c m d i v =>
    by_cases h : c.length ≠ m.length <;> simp [applyNdbOp, insert, h]
  | deleteDocVersionOp i v => simp [applyNdbOp, deleteDocVersion]
  | deleteDocOp i k => simp [applyNdbOp, deleteDoc]
  | pruneOp => simp [applyNdbOp, prune]

theorem next_id_le_applyNdbOps (st : NdbState) (ops : List NdbOp) :
    st.next_id ≤ (applyNdbOps st ops).next_id := by
  induction ops generalizing st with
  | nil => exact Nat.le_refl _
  | cons op t ih => exact Nat.le_trans (next_id_le_applyNdbOp st op) (ih _)

theorem insert_ok_spec (st : NdbState) (c : List String) (md : List MetadataMap)
    (d i : String) (v : Option Nat) (r : InsertMetadata) (st' : NdbState)
    (h : insert st c md d i v = .ok (r, st')) :
    r.start_id = st.next_id ∧ r.end_id = st.next_id + c.length ∧
      st'.next_id = st.next_id + c.length := by
  by_cases hl : c.length ≠ md.length
  · simp [insert, hl] at h
  · simp only [insert, hl, if_false, Except.ok.injEq, Prod.mk.injEq] at h
    obtain ⟨hr, hst⟩ := h
    subst hr
    subst hst
    exact ⟨rfl, rfl, rfl⟩

/-! ### Claim theorems -/

/-- C10: two default-constructed (Nil-tagged) MetadataValues compare equal,
and an EqualTo constraint carrying a Nil value matches a Nil candidate; Nil
participates in predicate evaluation like any other tag. -/
theorem nil_equals_nil_and_equalTo_nil_matches :
    MetadataValue.equals .nil .nil = true ∧
      (Constraint.equalTo .nil).matchesValue .nil = true :=
  ⟨rfl, rfl⟩

/-- C2: on every tag-mismatched pair, `equals`, `lessThan` and `greaterThan`
return false (totally, without an error), and `hasSubstring` returns false on
every pair that is not Str-tagged on both sides. -/
theorem predicates_false_on_tag_mismatch (a b : MetadataValue) :
    (a.type ≠ b.type →
      a.equals b = false ∧ a.lessThan b = false ∧ a.greaterThan b = false ∧
        a.hasSubstring b = false) ∧
    (¬(a.type = .str ∧ b.type = .str) → a.hasSubstring b = false) := by
  cases a <;> cases b <;>
    simp [MetadataValue.type, MetadataValue.equals, MetadataValue.lessThan,
      MetadataValue.greaterThan, MetadataValue.hasSubstring]

theorem predicates_false_on_tag_mismatch_witness :
    MetadataValue.equals (.int 1) (.bool true) = false ∧
      MetadataValue.lessThan (.int 1) (.bool true) = false ∧
      MetadataValue.greaterThan (.int 1) (.bool true) = false ∧
      MetadataValue.hasSubstring (.int 1) (.bool true) = false :=
  (predicates_false_on_tag_mismatch (.int 1) (.bool true)).1 (by decide)

/-- C3: each typed accessor succeeds and returns the stored value exactly when
the requested tag is the stored tag, and otherwise fails with the TypeMismatch
error message; the predicate methods are total Bool-valued functions and never
fail. -/
theorem accessors_succeed_iff_tag_matches (v : MetadataValue) :
    (∀ b, v.asBool = .ok b ↔ v = .bool b) ∧
    (∀ i, v.asInt = .ok i ↔ v = .int i) ∧
    (∀ q, v.asFloat = .ok q ↔ v = .float q) ∧
    (∀ s, v.asStr = .ok s ↔ v = .str s) ∧
    (okE v.asBool = (v.type == .bool)) ∧
    (okE v.asInt = (v.type == .int)) ∧
    (okE v.asFloat = (v.type == .float)) ∧
    (okE v.asStr = (v.type == .str)) ∧
    (v.type ≠ .bool → v.asBool = .error (MetadataValue.typeErrMsg v.type .bool)) ∧
    (v.type ≠ .int → v.asInt = .error (MetadataValue.typeErrMsg v.type .int)) ∧
    (v.type ≠ .float → v.asFloat = .error (MetadataValue.typeErrMsg v.type .float)) ∧
    (v.type ≠ .str → v.asStr = .error (MetadataValue.typeErrMsg v.type .str)) := by
  cases v <;>
    simp [MetadataValue.asBool, MetadataValue.asInt, MetadataValue.asFloat,
      MetadataValue.asStr, MetadataValue.type, okE]

theorem accessors_succeed_iff_tag_matches_witness :
    MetadataValue.asInt (.int 5) = .ok 5 ∧
      MetadataValue.asBool (.int 5) =
        .error (MetadataValue.typeErrMsg .int .bool) := by
  have h := accessors_succeed_iff_tag_matches (.int 5)
  exact ⟨(h.2.1 5).mpr rfl, h.2.2.2.2.2.2.2.2.1 (by decide)⟩

/-- C6: an AnyOf constraint matches exactly the candidates that satisfy an
EqualTo constraint for some element of its value set; with an empty value set
it matches nothing. -/
theorem anyOf_matches_iff_exists_equalTo (vs : List MetadataValue) (c : MetadataValue) :
    ((Constraint.anyOf vs).matchesValue c = true ↔
      ∃ v ∈ vs, (Constraint.equalTo v).matchesValue c = true) ∧
    (Constraint.anyOf []).matchesValue c = false := by
  constructor
  · simp only [Constraint.matchesValue, List.any_eq_true]
    constructor
    · rintro ⟨v, hv, hev⟩
      exact ⟨v, hv, by rw [(equals_iff_eq v c).2 ((equals_iff_eq c v).1 hev).symm]⟩
    · rintro ⟨v, hv, hev⟩
      exact ⟨v, hv, by rw [(equals_iff_eq c v).2 ((equals_iff_eq v c).1 hev).symm]⟩
  · simp [Constraint.matchesValue]

theorem anyOf_matches_iff_exists_equalTo_witness :
    (Constraint.anyOf [.int 1, .int 2]).matchesValue (.int 2) = true ∧
      (Constraint.anyOf []).matchesValue (.int 2) = false := by
  have h := anyOf_matches_iff_exists_equalTo [.int 1, .int 2] (.int 2)
  exact ⟨h.1.mpr ⟨.int 2, by decide, by decide⟩, h.2⟩

/-- C5: a Substring constraint matches a candidate exactly when both its stored
value and the candidate are Str-tagged and the string of the candidate contains the
stored string as a contiguous substring (the value of the constraint is the needle,
the candidate the haystack); needle "ab" matches haystack "xaby" but not
"ba". -/
theorem substring_matches_iff (s c : MetadataValue) :
    ((Constraint.substring s).matchesValue c = true ↔
      ∃ sv cv, s = .str sv ∧ c = .str cv ∧
        ∃ p q, cv.data = p ++ sv.data ++ q) ∧
    (Constraint.substring (.str "ab")).matchesValue (.str "xaby") = true ∧
    (Constraint.substring (.str "ab")).matchesValue (.str "ba") = false := by
  refine ⟨?_, by decide, by decide⟩
  cases s <;> cases c <;>
    simp [Constraint.matchesValue, MetadataValue.hasSubstring, containsSub_iff]

/-- C7: a LessThan constraint matches exactly the same-tagged candidates whose
underlying scalar is strictly below the stored one, a GreaterThan constraint
exactly those strictly above it (Str compared in byte/lexicographic order),
and both return false on every tag-mismatched pair. -/
theorem lessThan_greaterThan_matches_iff (v c : MetadataValue) :
    ((Constraint.lessThan v).matchesValue c = true ↔
      c.type = v.type ∧ specScalarLt c v) ∧
    ((Constraint.greaterThan v).matchesValue c = true ↔
      c.type = v.type ∧ specScalarLt v c) ∧
    (c.type ≠ v.type →
      (Constraint.lessThan v).matchesValue c = false ∧
        (Constraint.greaterThan v).matchesValue c = false) := by
  cases v <;> cases c <;>
    simp [Constraint.matchesValue, MetadataValue.lessThan,
      MetadataValue.greaterThan, MetadataValue.type, specScalarLt,
      charListLt_iff, Bool.lt_iff, and_comm]

theorem lessThan_greaterThan_matches_iff_witness :
    (Constraint.lessThan (.int 5)).matchesValue (.str "a") = false ∧
      (Constraint.greaterThan (.int 5)).matchesValue (.str "a") = false :=
  (lessThan_greaterThan_matches_iff (.int 5) (.str "a")).2.2 (by decide)

/-- C8: building QueryConstraints is last-write-wins per key — after adding a
constraint and then another for the same key (through the binary or the AnyOf
entry point of the binding), the set maps the key to exactly the second
constraint, and every other key is untouched. -/
theorem constraints_last_write_wins (m : QueryConstraints) (k : String)
    (a₁ a₂ : AddOp) (c₁ c₂ : Constraint)
    (h₁ : addedConstraint a₁ = some c₁) (h₂ : addedConstraint a₂ = some c₂) :
    mapGet (applyAdd (applyAdd m k a₁) k a₂) k = some c₂ ∧
    ∀ k', k' ≠ k → mapGet (applyAdd (applyAdd m k a₁) k a₂) k' = mapGet m k' := by
  rw [applyAdd_eq_mapSet _ _ _ _ h₁, applyAdd_eq_mapSet _ _ _ _ h₂]
  refine ⟨mapGet_mapSet_self _ _ _, fun k' hk' => ?_⟩
  rw [mapGet_mapSet_ne _ _ _ _ hk', mapGet_mapSet_ne _ _ _ _ hk']

theorem constraints_last_write_wins_witness :
    mapGet (applyAdd (applyAdd [] "k" (.binary 0 (.int 1))) "k"
      (.binary 3 (.str "x"))) "k" = some (.substring (.str "x")) ∧
    mapGet (applyAdd (applyAdd [] "k" (.binary 0 (.int 1))) "k"
      (.binary 3 (.str "x"))) "j" = mapGet ([] : QueryConstraints) "j" := by
  have h := constraints_last_write_wins [] "k" (.binary 0 (.int 1))
    (.binary 3 (.str "x")) (.equalTo (.int 1)) (.substring (.str "x"))
    (by decide) (by decide)
  exact ⟨h.1, h.2 "j" (by decide)⟩

/-- C9: through the C binding, the chunks vector of a document and metadata vector
always have the same length — `Document_add_chunk` appends one chunk text and
one empty metadata map together, and no other call changes either length. -/
theorem document_chunks_metadata_aligned (document doc_id : String)
    (ops : List DocOp) :
    (applyDocOps (Document_new document doc_id) ops).chunks.length =
      (applyDocOps (Document_new document doc_id) ops).metadata.length :=
  docOps_preserve ops _ rfl

/-- C1: `matches(constraints, metadata)` is true exactly when every
(key, constraint) pair of the constraints finds its key in the metadata and
the constraint accepts the value there; an absent constrained key fails the
match, and erasing any constrained key from a matching metadata map makes the
match false. -/
theorem matchesMeta_iff_all_present (cs : QueryConstraints) (m : MetadataMap) :
    (matchesMeta cs m = true ↔
      ∀ kc ∈ cs, ∃ v, mapGet m kc.1 = some v ∧ kc.2.matchesValue v = true) ∧
    (matchesMeta cs m = true →
      ∀ kc ∈ cs, matchesMeta cs (mapErase m kc.1) = false) := by
  have hiff : ∀ (m' : MetadataMap), matchesMeta cs m' = true ↔
      ∀ kc ∈ cs, ∃ v, mapGet m' kc.1 = some v ∧ kc.2.matchesValue v = true := by
    intro m'
    simp only [matchesMeta, List.all_eq_true]
    refine forall₂_congr fun kc _ => ?_
    cases hg : mapGet m' kc.1 <;> simp [hg]
  refine ⟨hiff m, fun hm kc hkc => ?_⟩
  cases hf : matchesMeta cs (mapErase m kc.1) with
  | false => rfl
  | true =>
    exfalso
    obtain ⟨v, hv, -⟩ := (hiff _).1 hf kc hkc
    rw [mapGet_mapErase_self] at hv
    exact Option.noConfusion hv

theorem matchesMeta_iff_all_present_witness :
    matchesMeta [("lang", .equalTo (.str "en"))]
      [("lang", .str "en"), ("len", .int 5)] = true ∧
    matchesMeta [("lang", .equalTo (.str "en"))]
      (mapErase [("lang", .str "en"), ("len", .int 5)] "lang") = false := by
  have h := matchesMeta_iff_all_present [("lang", .equalTo (.str "en"))]
    [("lang", .str "en"), ("len", .int 5)]
  have hm : matchesMeta [("lang", .equalTo (.str "en"))]
      [("lang", .str "en"), ("len", .int 5)] = true := by decide
  exact ⟨hm, h.2 hm ("lang", .equalTo (.str "en")) (by decide)⟩

/-- C4: a successful chunk-id range of an insert has length equal to the number of
input chunks (half-open `[start_id, end_id)` convention), and the range of a
later insert — after any sequence of inserts, deletions and prunes — is
disjoint from it: no chunk id is ever allocated twice over the lifetime of
the store. -/
theorem insert_ranges_disjoint
    (st : NdbState) (c₁ : List String) (m₁ : List MetadataMap) (d₁ i₁ : String)
    (v₁ : Option Nat) (r₁ : InsertMetadata) (st₁ : NdbState) (ops : List NdbOp)
    (c₂ : List String) (m₂ : List MetadataMap) (d₂ i₂ : String)
    (v₂ : Option Nat) (r₂ : InsertMetadata) (st₂ : NdbState)
    (h₁ : insert st c₁ m₁ d₁ i₁ v₁ = .ok (r₁, st₁))
    (h₂ : insert (applyNdbOps st₁ ops) c₂ m₂ d₂ i₂ v₂ = .ok (r₂, st₂)) :
    r₁.end_id - r₁.start_id = c₁.length ∧
    r₂.end_id - r₂.start_id = c₂.length ∧
    ∀ id, r₁.start_id ≤ id → id < r₁.end_id →
      ¬(r₂.start_id ≤ id ∧ id < r₂.end_id) := by
  obtain ⟨hs₁, he₁, hn₁⟩ := insert_ok_spec _ _ _ _ _ _ _ _ h₁
  obtain ⟨hs₂, he₂, hn₂⟩ := insert_ok_spec _ _ _ _ _ _ _ _ h₂
  have hmono := next_id_le_applyNdbOps st₁ ops
  refine ⟨by omega, by omega, ?_⟩
  rintro id hle hlt ⟨hle₂, -⟩
  omega

theorem insert_ranges_disjoint_witness :
    ((1 : Nat) - 0 = (["a"] : List String).length) ∧
    ¬((InsertMetadata.mk "x" 2 1 2).start_id ≤ 0 ∧
        (0 : Nat) < (InsertMetadata.mk "x" 2 1 2).end_id) := by
  have h := insert_ranges_disjoint NdbState.empty ["a"] [[]] "d" "x" none
    (InsertMetadata.mk "x" 1 0 1)
    (NdbState.mk 1 [("x", 1)] [("x", 1, 0, 1)]) []
    ["b"] [[]] "d" "x" none
    (InsertMetadata.mk "x" 2 1 2)
    (NdbState.mk 2 [("x", 2)] [("x", 1, 0, 1), ("x", 2, 1, 2)])
    (by rfl) (by rfl)
  exact ⟨h.1, h.2.2 0 (Nat.le_refl 0) (by decide)⟩

end Ndb
